import Mathlib

/-!
Shallow embedding of `src/ble/bytes.rs` (rubble's byte (de)serialization
core): the bounded `ByteWriter`, the cursor read primitives, the
`FromBytes` decoders for `u8` and `&[u8]`, and the dual-representation
`BytesOr` reflector with its iteration support.

Byte buffers are `List Nat` (each element a byte value; arithmetic facts
about byte ranges are taken modulo 256 explicitly where they matter).
A Rust `&mut &[u8]` decoding cursor becomes explicit state passing: a
decoder consumes from the front of a list and returns the parsed value
together with the remaining list. A `ByteWriter`, which in Rust holds the
mutable sub-slice of the destination buffer that has not been written yet,
becomes a pair of indices `(lo, hi)` into an explicit memory list that is
threaded through the write operations.
-/

set_option autoImplicit false

namespace Rubble

/-- Modelled from the spec: the error enum `crate::ble::Error` is not part
of the provided source file, only its uses are. Section 7 of the spec gives
the closed taxonomy consumed by this core: `Eof` (insufficient space or
input) and `IncompleteParse` (decode left unconsumed bytes), plus opaque
downstream decode errors owned by upper layers, which `other` stands for. -/
inductive Error where
  | eof
  | incompleteParse
  | other (code : Nat)
deriving DecidableEq, Repr

/-- A decoder in the style of `FromBytes::from_bytes(bytes: &mut &[u8])`:
it takes the input slice and returns the decoded value together with the
advanced slice (the suffix not consumed), or an error. -/
abbrev Decoder (τ : Type) : Type := List Nat → Except Error (τ × List Nat)

/-- Overwrite `mem` starting at index `i` with the bytes `xs`, leaving all
other positions unchanged. This models `slice[..len].copy_from_slice(other)`
performed on the sub-slice of the destination buffer starting at `i`
(meaningful when `i + xs.length ≤ mem.length`, which the writer's bounds
check guarantees before any write). -/
def writeAt (mem : List Nat) (i : Nat) (xs : List Nat) : List Nat :=
  mem.take i ++ xs ++ mem.drop (i + xs.length)

/-- The writer `ByteWriter<'a>(&'a mut [u8])` holds the unwritten
remaining-capacity sub-slice of a destination buffer. Here the underlying
buffer is threaded explicitly, and the writer is the half-open index range
`[lo, hi)` of that buffer which the Rust slice covers. -/
structure ByteWriter where
  lo : Nat
  hi : Nat
deriving DecidableEq, Repr

namespace ByteWriter

/-- Mirrors `ByteWriter::new(buf)`: wrap the full buffer as initial
remaining capacity. -/
def new (buf : List Nat) : ByteWriter :=
  ⟨0, buf.length⟩

/-- Mirrors `ByteWriter::space_left`: the length of the remaining slice. -/
def space_left (w : ByteWriter) : Nat :=
  w.hi - w.lo

/-- Mirrors `ByteWriter::write_slice`: if the remaining capacity is smaller
than `other`, fail with `Eof` touching neither the writer nor the buffer;
otherwise copy `other` to the front of the remaining region and advance
the writer past it. Returns the call result, the writer state after the
call, and the buffer contents after the call. -/
def write_slice (w : ByteWriter) (mem : List Nat) (other : List Nat) :
    Except Error Unit × ByteWriter × List Nat :=
  if w.space_left < other.length then
    (.error .eof, w, mem)
  else
    (.ok (), ⟨w.lo + other.length, w.hi⟩, writeAt mem w.lo other)

/-- Little-endian encoding of a 16-bit value into two bytes, as performed
by `LittleEndian::write_u16` from the byteorder crate: least significant
byte first. The value is reduced modulo 2^16 as a Rust `u16` is. -/
def u16_le_bytes (value : Nat) : List Nat :=
  [value % 65536 % 256, value % 65536 / 256]

/-- Mirrors `ByteWriter::write_u16::<LittleEndian>`: encode the value into
a two-byte scratch array with the byte-order policy, then `write_slice`
it. -/
def write_u16 (w : ByteWriter) (mem : List Nat) (value : Nat) :
    Except Error Unit × ByteWriter × List Nat :=
  w.write_slice mem (u16_le_bytes value)

/-- Mirrors `ByteWriter::split_off(len)`: if the remaining capacity is
smaller than `len`, fail with `Eof` leaving the writer unchanged; otherwise
return a new writer over exactly the next `len` bytes and advance `self`
past them. Returns the call result (carrying the split-off writer) together
with the state of `self` after the call. No buffer bytes are read or
written by this operation. -/
def split_off (w : ByteWriter) (len : Nat) :
    Except Error ByteWriter × ByteWriter :=
  if w.space_left < len then
    (.error .eof, w)
  else
    (.ok ⟨w.lo, w.lo + len⟩, ⟨w.lo + len, w.hi⟩)

end ByteWriter

/-- Mirrors `SliceExt::read_array::<S>` at element type `u8` with a target
array of length `k`: if fewer than `k` bytes remain, fail with `Eof`
without consuming; otherwise return the first `k` bytes and advance past
them. -/
def read_array (k : Nat) (b : List Nat) : Except Error (List Nat × List Nat) :=
  if b.length < k then
    .error .eof
  else
    .ok (b.take k, b.drop k)

/-- Mirrors `BytesExt::read_u8`: read a one-byte array and return its
single element. -/
def read_u8 (b : List Nat) : Except Error (Nat × List Nat) :=
  match read_array 1 b with
  | .error e => .error e
  | .ok (arr, rest) => .ok (arr.getD 0 0, rest)

/-- Mirrors `BytesExt::read_u16::<LittleEndian>`: read a two-byte array and
combine it least-significant-byte first, as `LittleEndian::read_u16`
does. -/
def read_u16 (b : List Nat) : Except Error (Nat × List Nat) :=
  match read_array 2 b with
  | .error e => .error e
  | .ok (arr, rest) => .ok (arr.getD 0 0 + 256 * arr.getD 1 0, rest)

/-- Mirrors `impl FromBytes for u8`: `bytes.read_u8()`. -/
def u8_from_bytes : Decoder Nat :=
  read_u8

/-- Mirrors `impl FromBytes for &[u8]`:
`Ok(mem::replace(bytes, &[]))` — return the entire remaining input as the
decoded value and leave the input slice empty. It never fails. -/
def slice_from_bytes : Decoder (List Nat) :=
  fun b => .ok (b, [])

/-- Mirrors `SliceExt::read_first` (here at an arbitrary element type):
pop and return the first element, advancing the slice; `Eof` when empty. -/
def read_first {τ : Type} (l : List τ) : Except Error (τ × List τ) :=
  match l with
  | [] => .error .eof
  | x :: rest => .ok (x, rest)

/-- The dual-representation reflector `BytesOr<'a, T>`, a newtype over the
tagged `Inner<'a, T>` with variants `Inner::Bytes(&'a [u8])` and
`Inner::Or(&'a T)`; the newtype wrapper is merged into the inductive here.
For the sequence form `BytesOr<'a, [T]>` instantiate `α` with `List τ`;
a borrowed `&'a T` is modelled by the value it refers to. The Rust type is
`Copy`, which the value semantics of the embedding gives for free. -/
inductive BytesOr (α : Type) where
  | bytes (b : List Nat)
  | or (value : α)
deriving DecidableEq, Repr

namespace BytesOr

/-- Mirrors `BytesOr::from_ref` (and the `From<&'a T>` impl): store the
reference with zero validation. -/
def from_ref {α : Type} (value : α) : BytesOr α :=
  .or value

/-- Mirrors `impl FromBytes for BytesOr<'a, T>`: run `T::from_bytes`
against a copy of the supplied span (`let bytes = &mut &**bytes;`); fail
with the decode error, or with `IncompleteParse` if the copy was not fully
consumed; on success store the original span. The outer slice is never
advanced, so the remaining input handed back to the caller is the original
`input` itself. -/
def from_bytes {τ : Type} (dec : Decoder τ) (input : List Nat) :
    Except Error (BytesOr τ × List Nat) :=
  match dec input with
  | .error e => .error e
  | .ok (_, rest) =>
    if rest.isEmpty then .ok (.bytes input, input)
    else .error .incompleteParse

/-- The validation loop of `impl FromBytes for BytesOr<'a, [T]>`:
`while !bytes.is_empty() { T::from_bytes(bytes)?; }` run on a copy of the
span. The Rust loop has no fuel; `fuel` bounds the number of iterations so
the definition is total, and `from_bytes_seq` supplies `input.length + 1`,
which is never exhausted by a decoder that consumes at least one byte from
a nonempty input (every decoder used in the claims does). -/
def validateSeq {τ : Type} (dec : Decoder τ) : Nat → List Nat → Except Error Unit
  | _, [] => .ok ()
  | 0, _ :: _ => .error .eof
  | fuel + 1, x :: rest =>
    match dec (x :: rest) with
    | .error e => .error e
    | .ok (_, rest2) => validateSeq dec fuel rest2

/-- Mirrors `impl FromBytes for BytesOr<'a, [T]>`: repeatedly decode from a
copy of the span until it is empty, propagating any decode error; on
success store the original span. As in the single-value impl, the outer
slice is never advanced. -/
def from_bytes_seq {τ : Type} (dec : Decoder τ) (input : List Nat) :
    Except Error (BytesOr (List τ) × List Nat) :=
  match validateSeq dec (input.length + 1) input with
  | .error e => .error e
  | .ok () => .ok (.bytes input, input)

/-- Mirrors `BytesOr::read` for the single-value form: if holding bytes,
re-run the decoder on a local copy of the stored span (`Inner::Bytes(mut b)`
copies the span out of `self.0`, so `self` is untouched), `unwrap` the
result and `assert!` the copy was fully consumed; if holding a reference,
copy the value out. The result pairs the returned `T` with the reflector's
state after the call, which the source leaves unchanged; `none` models a
panic of the `unwrap` or the `assert!` (an internal-consistency failure,
not an `Error` value — it is not representable as `Eof`/`IncompleteParse`). -/
def read {τ : Type} (dec : Decoder τ) : BytesOr τ → Option (τ × BytesOr τ)
  | .bytes b =>
    match dec b with
    | .error _ => none
    | .ok (t, rest) => if rest.isEmpty then some (t, .bytes b) else none
  | .or t => some (t, .or t)

end BytesOr

/-- Mirrors `struct IterBytesOr<'a, T> { inner: BytesOr<'a, [T]> }`: the
iterator over a sequence reflector owns a copy of the reflector. -/
structure IterBytesOr (τ : Type) where
  inner : BytesOr (List τ)
deriving DecidableEq, Repr

/-- Mirrors `BytesOr::<[T]>::iter`: build the iterator from a copy of
`self` (`IterBytesOr { inner: *self }`); `self` is taken by shared
reference and is not changed, so every call yields an iterator starting
from the first element. -/
def BytesOr.iter {τ : Type} (r : BytesOr (List τ)) : IterBytesOr τ :=
  ⟨r⟩

namespace IterBytesOr

/-- Mirrors `Iterator::next` for `IterBytesOr`: in the bytes-backed shape,
stop on an empty span, otherwise decode the next element from the front
(the `unwrap` panics if the decoder fails — outer `none` models that
panic); in the reference-backed shape, `slice.read_first().ok()` pops the
next element. `some none` is iterator exhaustion (`None` in Rust), and
`some (some (t, it))` yields `t` with `it` the iterator state after the
call. -/
def next {τ : Type} (dec : Decoder τ) (it : IterBytesOr τ) :
    Option (Option (τ × IterBytesOr τ)) :=
  match it.inner with
  | .bytes b =>
    if b.isEmpty then
      some none
    else
      match dec b with
      | .error _ => none
      | .ok (t, rest) => some (some (t, ⟨.bytes rest⟩))
  | .or l =>
    match read_first l with
    | .error _ => some none
    | .ok (x, rest) => some (some (x, ⟨.or rest⟩))

/-- Drain the iterator by repeated `next`, collecting the yielded elements
in order: `some ts` when the iterator yields `ts` and then reports
exhaustion without panicking, `none` when a `next` call panics. `fuel`
bounds the number of yields so the definition is total; the claims supply
fuel at least the number of elements, which is never exhausted there. -/
def collect {τ : Type} (dec : Decoder τ) : Nat → IterBytesOr τ → Option (List τ)
  | 0, it =>
    match next dec it with
    | some none => some []
    | _ => none
  | fuel + 1, it =>
    match next dec it with
    | none => none
    | some none => some []
    | some (some (t, it2)) => (collect dec fuel it2).map (t :: ·)

end IterBytesOr

/-! Helper lemmas shared by the claim theorems. -/

/-- Decoding a `u8` from a nonempty slice pops the first byte. -/
theorem u8_from_bytes_cons (x : Nat) (rest : List Nat) :
    u8_from_bytes (x :: rest) = .ok (x, rest) := by
  unfold u8_from_bytes read_u8 read_array
  rw [if_neg (by simp)]
  simp

/-- A successful `write_slice` leaves every buffer position outside the
writer's remaining-capacity region untouched; a failed one leaves the whole
buffer untouched. -/
theorem write_slice_frame (w : ByteWriter) (mem other : List Nat) (i : Nat)
    (hlh : w.lo ≤ w.hi) (hv : w.hi ≤ mem.length)
    (h : i < w.lo ∨ w.hi ≤ i) :
    ((w.write_slice mem other).2.2)[i]? = mem[i]? := by
  unfold ByteWriter.write_slice
  by_cases hsp : w.space_left < other.length
  · rw [if_pos hsp]
  · rw [if_neg hsp]
    unfold ByteWriter.space_left at hsp
    have hol : w.lo + other.length ≤ w.hi := by omega
    have hlom : w.lo ≤ mem.length := by omega
    have htl : (mem.take w.lo).length = w.lo := by
      rw [List.length_take]; omega
    have hlen2 : (mem.take w.lo ++ other).length = w.lo + other.length := by
      rw [List.length_append, htl]
    unfold writeAt
    rcases h with h | h
    · rw [List.getElem?_append_left (by rw [hlen2]; omega),
        List.getElem?_append_left (by rw [htl]; omega),
        List.getElem?_take_of_lt h]
    · rw [List.getElem?_append_right (by rw [hlen2]; omega)]
      rw [hlen2, List.getElem?_drop]
      congr 1
      omega

/-- C1: for a writer with `n` bytes of remaining capacity, `write_slice` on
an input longer than `n` bytes returns `Error::Eof`, leaves `space_left()`
equal to `n`, and leaves the underlying buffer's bytes unchanged; on an
input of length `m ≤ n` it succeeds, copies exactly those `m` bytes to the
front of the remaining-capacity region (all other buffer bytes unchanged,
buffer length preserved), and shrinks the remaining capacity to `n - m`. -/
theorem write_slice_atomicity (w : ByteWriter) (mem other : List Nat) (n : Nat)
    (hn : w.space_left = n) (hlh : w.lo ≤ w.hi) (hv : w.hi ≤ mem.length) :
    (n < other.length →
      w.write_slice mem other = (.error .eof, w, mem)) ∧
    (other.length ≤ n →
      w.write_slice mem other =
        (.ok (), ⟨w.lo + other.length, w.hi⟩,
          mem.take w.lo ++ other ++ mem.drop (w.lo + other.length)) ∧
      ByteWriter.space_left ⟨w.lo + other.length, w.hi⟩ = n - other.length ∧
      (mem.take w.lo ++ other ++ mem.drop (w.lo + other.length)).length =
        mem.length) := by
  subst hn
  constructor
  · intro h
    unfold ByteWriter.write_slice
    rw [if_pos h]
  · intro h
    refine ⟨?_, ?_, ?_⟩
    · unfold ByteWriter.write_slice writeAt
      rw [if_neg (by omega)]
    · simp only [ByteWriter.space_left] at h ⊢
      omega
    · simp only [ByteWriter.space_left] at h
      rw [List.length_append, List.length_append, List.length_take,
        List.length_drop]
      omega

/-- Witness for C1 at a concrete writer: capacity 2, a 3-byte write fails
atomically and a 2-byte write succeeds. -/
theorem write_slice_atomicity_witness :
    ((2 : Nat) < 3 ∧
      (ByteWriter.new [9, 9]).write_slice [9, 9] [1, 2, 3] =
        (.error .eof, ByteWriter.new [9, 9], [9, 9])) ∧
    ((2 : Nat) ≤ 2 ∧
      (ByteWriter.new [9, 9]).write_slice [9, 9] [1, 2] =
        (.ok (), ⟨2, 2⟩, [1, 2])) := by
  have h := write_slice_atomicity (ByteWriter.new [9, 9]) [9, 9] [1, 2, 3] 2
    rfl (by decide) (by decide)
  have h2 := write_slice_atomicity (ByteWriter.new [9, 9]) [9, 9] [1, 2] 2
    rfl (by decide) (by decide)
  exact ⟨⟨by decide, h.1 (by decide)⟩, ⟨by decide, (h2.2 (by decide)).1⟩⟩

/-- C9: writing `0x1234` with `write_u16::<LittleEndian>` into a 2-byte
buffer succeeds and produces the bytes `[0x34, 0x12]` with no capacity
left, and `read_u16::<LittleEndian>` on those two bytes yields `0x1234`
consuming both. -/
theorem u16_little_endian_roundtrip :
    (ByteWriter.new [0, 0]).write_u16 [0, 0] 0x1234 =
      (.ok (), ⟨2, 2⟩, [0x34, 0x12]) ∧
    ByteWriter.space_left ⟨2, 2⟩ = 0 ∧
    read_u16 [0x34, 0x12] = .ok (0x1234, []) := by
  refine ⟨rfl, rfl, rfl⟩

/-- C10: the `FromBytes` impl for `&[u8]` succeeds on every input,
including the empty slice, returning the entire remaining input and
leaving the input slice empty; consequently `BytesOr<&[u8]>::from_bytes`
always succeeds (never `IncompleteParse` or any other error). -/
theorem slice_from_bytes_total (input : List Nat) :
    slice_from_bytes input = .ok (input, []) ∧
    BytesOr.from_bytes slice_from_bytes input = .ok (.bytes input, input) := by
  exact ⟨rfl, rfl⟩

/-- C8: `split_off(k)` on a writer with `n ≥ k` remaining bytes yields a
new writer over exactly the next `k` bytes (`space_left() == k`) and
leaves the original with `space_left() == n - k` over the bytes
immediately after the split-off region; a `write_slice` through any writer
whose region lies inside the head's region never changes a buffer byte at
or past the split point, and one through any writer whose region lies past
the split point never changes a byte before it; for `k > n` it returns
`Error::Eof` leaving the original writer unchanged (and, taking no buffer
argument at all, it touches no buffer contents). -/
theorem split_off_disjoint (w : ByteWriter) (n k : Nat)
    (hn : w.space_left = n) :
    (k ≤ n →
      w.split_off k = (.ok ⟨w.lo, w.lo + k⟩, ⟨w.lo + k, w.hi⟩) ∧
      ByteWriter.space_left ⟨w.lo, w.lo + k⟩ = k ∧
      ByteWriter.space_left ⟨w.lo + k, w.hi⟩ = n - k ∧
      (∀ (w1 : ByteWriter) (mem other : List Nat) (i : Nat),
        w1.lo ≤ w1.hi → w1.hi ≤ mem.length → w1.hi ≤ w.lo + k →
        w.lo + k ≤ i →
        ((w1.write_slice mem other).2.2)[i]? = mem[i]?) ∧
      (∀ (w2 : ByteWriter) (mem other : List Nat) (i : Nat),
        w2.lo ≤ w2.hi → w2.hi ≤ mem.length → w.lo + k ≤ w2.lo →
        i < w.lo + k →
        ((w2.write_slice mem other).2.2)[i]? = mem[i]?)) ∧
    (n < k → w.split_off k = (.error .eof, w)) := by
  subst hn
  constructor
  · intro hk
    refine ⟨?_, ?_, ?_, ?_, ?_⟩
    · unfold ByteWriter.split_off
      rw [if_neg (by omega)]
    · simp only [ByteWriter.space_left]
      omega
    · simp only [ByteWriter.space_left] at hk ⊢
      omega
    · intro w1 mem other i h1 h2 h3 h4
      exact write_slice_frame w1 mem other i h1 h2 (Or.inr (by omega))
    · intro w2 mem other i h1 h2 h3 h4
      exact write_slice_frame w2 mem other i h1 h2 (Or.inl (by omega))
  · intro hk
    unfold ByteWriter.split_off
    rw [if_pos (by simpa [ByteWriter.space_left] using hk)]

/-- Witness for C8: a writer over 5 bytes split at 2; writing through the
head writer leaves index 3 untouched, writing through the tail writer
leaves index 1 untouched, and splitting off 6 fails. -/
theorem split_off_disjoint_witness :
    ((2 : Nat) ≤ 5 ∧
      (ByteWriter.new [9, 9, 9, 9, 9]).split_off 2 =
        (.ok ⟨0, 2⟩, ⟨2, 5⟩) ∧
      ((ByteWriter.mk 0 2).write_slice [9, 9, 9, 9, 9] [1, 2]).2.2[3]? =
        ([9, 9, 9, 9, 9] : List Nat)[3]? ∧
      ((ByteWriter.mk 2 5).write_slice [9, 9, 9, 9, 9] [1, 2]).2.2[1]? =
        ([9, 9, 9, 9, 9] : List Nat)[1]?) ∧
    ((5 : Nat) < 6 ∧
      (ByteWriter.new [9, 9, 9, 9, 9]).split_off 6 =
        (.error .eof, ByteWriter.new [9, 9, 9, 9, 9])) := by
  have h := split_off_disjoint (ByteWriter.new [9, 9, 9, 9, 9]) 5 2 rfl
  have h6 := split_off_disjoint (ByteWriter.new [9, 9, 9, 9, 9]) 5 6 rfl
  have hk := h.1 (by decide)
  refine ⟨⟨by decide, hk.1, ?_, ?_⟩, by decide, h6.2 (by decide)⟩
  · exact hk.2.2.2.1 (ByteWriter.mk 0 2) [9, 9, 9, 9, 9] [1, 2] 3
      (by decide) (by decide) (by decide) (by decide)
  · exact hk.2.2.2.2 (ByteWriter.mk 2 5) [9, 9, 9, 9, 9] [1, 2] 1
      (by decide) (by decide) (by decide) (by decide)

/-- C2: constructing a single-value `BytesOr<T>` from bytes fails with
`IncompleteParse` whenever the decoder succeeds but leaves trailing bytes
(in particular on a span that is one valid encoding followed by extra
bytes), propagates any decode error of `T` unchanged, succeeds exactly
when the decoder consumes the span entirely, and on success stores the
original supplied span. -/
theorem bytesOr_from_bytes_exact {τ : Type} (dec : Decoder τ)
    (input : List Nat) :
    (∀ (v : τ) (rest : List Nat), dec input = .ok (v, rest) → rest ≠ [] →
      BytesOr.from_bytes dec input = .error .incompleteParse) ∧
    (∀ e : Error, dec input = .error e →
      BytesOr.from_bytes dec input = .error e) ∧
    (∀ v : τ, dec input = .ok (v, []) →
      BytesOr.from_bytes dec input = .ok (.bytes input, input)) ∧
    (∀ (r : BytesOr τ) (s : List Nat),
      BytesOr.from_bytes dec input = .ok (r, s) →
      (∃ v : τ, dec input = .ok (v, [])) ∧ r = .bytes input) := by
  refine ⟨?_, ?_, ?_, ?_⟩
  · intro v rest hd hne
    unfold BytesOr.from_bytes
    rw [hd]
    simp [List.isEmpty_iff, hne]
  · intro e hd
    unfold BytesOr.from_bytes
    rw [hd]
  · intro v hd
    unfold BytesOr.from_bytes
    rw [hd]
    rfl
  · intro r s hok
    unfold BytesOr.from_bytes at hok
    cases hd : dec input with
    | error e => rw [hd] at hok; exact absurd hok (by simp)
    | ok p =>
      obtain ⟨v, rest⟩ := p
      rw [hd] at hok
      cases hrest : rest with
      | nil =>
        subst hrest
        simp at hok
        exact ⟨⟨v, rfl⟩, hok.1.symm⟩
      | cons x xs =>
        subst hrest
        simp at hok

/-- Witness for C2: with the `u8` decoder, the two-byte span `[7, 8]` is
one valid encoding plus one extra byte and is rejected as
`IncompleteParse`, while the exactly-consumed span `[7]` succeeds and
stores the original span. -/
theorem bytesOr_from_bytes_exact_witness :
    BytesOr.from_bytes u8_from_bytes [7, 8] = .error .incompleteParse ∧
    BytesOr.from_bytes u8_from_bytes [7] = .ok (.bytes [7], [7]) := by
  refine ⟨(bytesOr_from_bytes_exact u8_from_bytes [7, 8]).1 7 [8]
    (u8_from_bytes_cons 7 [8]) (by decide), ?_⟩
  exact (bytesOr_from_bytes_exact u8_from_bytes [7]).2.2.1 7
    (u8_from_bytes_cons 7 [])

/-- Counterexample to C3: a successful single-value
`BytesOr::from_bytes` call does not leave the caller's slice empty. On the
one-byte input `[5]` with the `u8` decoder the call succeeds, yet the
caller's slice afterwards is still `[5]`, not `[]`: the impl decodes from
a copy (`let bytes = &mut &**bytes;`) and never advances the outer
slice. -/
theorem bytesOr_from_bytes_input_not_advanced_cx :
    BytesOr.from_bytes u8_from_bytes [5] = .ok (.bytes [5], [5]) ∧
    ([5] : List Nat) ≠ [] := by
  exact ⟨rfl, by decide⟩

/-- C3 (amended): a successful `from_bytes` of `u8` advances the caller's
slice past exactly the one byte consumed, and `&[u8]` consumes the whole
input leaving the caller's slice empty; the `BytesOr` impls (single-value
and sequence), however, decode from a copy of the span and on success
leave the caller's slice exactly as it was — the full original span, not
the empty slice. -/
theorem from_bytes_cursor_advance_amended :
    (∀ (x : Nat) (rest : List Nat), u8_from_bytes (x :: rest) = .ok (x, rest)) ∧
    (∀ input : List Nat, slice_from_bytes input = .ok (input, [])) ∧
    (∀ (τ : Type) (dec : Decoder τ) (input : List Nat) (r : BytesOr τ)
      (s : List Nat), BytesOr.from_bytes dec input = .ok (r, s) → s = input) ∧
    (∀ (τ : Type) (dec : Decoder τ) (input : List Nat) (r : BytesOr (List τ))
      (s : List Nat), BytesOr.from_bytes_seq dec input = .ok (r, s) →
      s = input) := by
  refine ⟨u8_from_bytes_cons, fun _ => rfl, ?_, ?_⟩
  · intro τ dec input r s hok
    unfold BytesOr.from_bytes at hok
    cases hd : dec input with
    | error e => rw [hd] at hok; exact absurd hok (by simp)
    | ok p =>
      obtain ⟨v, rest⟩ := p
      rw [hd] at hok
      cases hrest : rest.isEmpty with
      | true => simp [hrest] at hok; exact hok.2.symm
      | false => simp [hrest] at hok
  · intro τ dec input r s hok
    unfold BytesOr.from_bytes_seq at hok
    cases hd : BytesOr.validateSeq dec (input.length + 1) input with
    | error e => rw [hd] at hok; exact absurd hok (by simp)
    | ok u =>
      cases u
      rw [hd] at hok
      simp at hok
      exact hok.2.symm

/-- Witness for C3 (amended) at concrete inputs: `u8` advances past its
one consumed byte, and a successful single-value `BytesOr` construction
hands back the original span unchanged. -/
theorem from_bytes_cursor_advance_amended_witness :
    u8_from_bytes [3, 4] = .ok (3, [4]) ∧ ([5] : List Nat) = [5] := by
  refine ⟨from_bytes_cursor_advance_amended.1 3 [4], ?_⟩
  exact from_bytes_cursor_advance_amended.2.2.1 Nat u8_from_bytes [5]
    (.bytes [5]) [5] rfl

/-- The re-decode inside `read()` succeeds and consumes the whole stored
span for any reflector produced by a successful single-value `from_bytes`,
and the reflector's state after the call is the state before it. Shared
backbone of the two `read()` claims. -/
theorem read_of_from_bytes {τ : Type} (dec : Decoder τ) (input s : List Nat)
    (r : BytesOr τ) (h : BytesOr.from_bytes dec input = .ok (r, s)) :
    ∃ t : τ, BytesOr.read dec r = some (t, r) := by
  unfold BytesOr.from_bytes at h
  cases hd : dec input with
  | error e => rw [hd] at h; exact absurd h (by simp)
  | ok p =>
    obtain ⟨v, rest⟩ := p
    rw [hd] at h
    cases hrest : rest with
    | nil =>
      subst hrest
      simp at h
      refine ⟨v, ?_⟩
      rw [← h.1]
      simp [BytesOr.read, hd]
    | cons x xs =>
      subst hrest
      simp at h

/-- C4: on an unmutated single-value reflector — one obtained from
`from_ref` or from a successful bytes-form `from_bytes` — `read()`
returns a value, leaves the reflector's internal state (tag and stored
span or reference) unchanged, and a second call returns the same value
again: the call result is a function of the unchanged state. -/
theorem bytesOr_read_idempotent {τ : Type} (dec : Decoder τ) (r : BytesOr τ)
    (hr : (∃ t : τ, r = BytesOr.from_ref t) ∨
      (∃ input s : List Nat, BytesOr.from_bytes dec input = .ok (r, s))) :
    ∃ (t : τ) (r2 : BytesOr τ),
      BytesOr.read dec r = some (t, r2) ∧ r2 = r ∧
      BytesOr.read dec r2 = some (t, r2) := by
  rcases hr with ⟨t, ht⟩ | ⟨input, s, h⟩
  · subst ht
    exact ⟨t, .or t, rfl, rfl, rfl⟩
  · obtain ⟨t, ht⟩ := read_of_from_bytes dec input s r h
    exact ⟨t, r, ht, rfl, ht⟩

/-- Witness for C4 on the bytes-backed reflector over `[9]` with the `u8`
decoder: `read()` returns the decoded byte and the unchanged state, twice
over. -/
theorem bytesOr_read_idempotent_witness :
    ∃ (t : Nat) (r2 : BytesOr Nat),
      BytesOr.read u8_from_bytes (.bytes [9]) = some (t, r2) ∧
      r2 = BytesOr.bytes [9] ∧
      BytesOr.read u8_from_bytes r2 = some (t, r2) := by
  exact bytesOr_read_idempotent u8_from_bytes (.bytes [9])
    (Or.inr ⟨[9], [9], rfl⟩)

/-- C5: for a single-value reflector constructed through the bytes form of
`from_bytes`, the re-decode inside `read()` succeeds and consumes the
entire stored span, so `read()` returns `some` value (never the `none`
modelling the panic of the `unwrap`/`assert!`); such a panic is not an
`Error` value, so it is distinct from the `Eof`/`IncompleteParse`
user-input errors by construction. -/
theorem bytesOr_read_no_panic {τ : Type} (dec : Decoder τ)
    (input s : List Nat) (r : BytesOr τ)
    (h : BytesOr.from_bytes dec input = .ok (r, s)) :
    ∃ t : τ, BytesOr.read dec r = some (t, r) := by
  exact read_of_from_bytes dec input s r h

/-- Witness for C5 on the bytes-backed reflector over `[3]` with the `u8`
decoder. -/
theorem bytesOr_read_no_panic_witness :
    ∃ t : Nat, BytesOr.read u8_from_bytes (.bytes [3]) =
      some (t, BytesOr.bytes [3]) := by
  exact bytesOr_read_no_panic u8_from_bytes [3] [3] (.bytes [3]) rfl

/-- The sequence-construction loop accepts any concatenation of valid
encodings, given a decoder and an encoder that agree (`dec (enc t ++ rest)`
parses `t` and leaves `rest`) with nonempty encodings, provided the fuel
covers the span length. -/
theorem validateSeq_join {τ : Type} (dec : Decoder τ) (enc : τ → List Nat)
    (hdec : ∀ (t : τ) (rest : List Nat), dec (enc t ++ rest) = .ok (t, rest))
    (hne : ∀ t : τ, enc t ≠ []) :
    ∀ (ts : List τ) (fuel : Nat), ((ts.map enc).flatten).length ≤ fuel →
    BytesOr.validateSeq dec fuel ((ts.map enc).flatten) = .ok () := by
  intro ts
  induction ts with
  | nil =>
    intro fuel hf
    cases fuel <;> rfl
  | cons t ts ih =>
    intro fuel hf
    have hjoin : (((t :: ts).map enc).flatten) = enc t ++ ((ts.map enc).flatten) := by
      simp
    obtain ⟨x, xs, hx⟩ := List.exists_cons_of_ne_nil (hne t)
    have hel : 1 ≤ (enc t).length := by
      rw [hx]; simp
    have hlensum : (enc t).length + ((ts.map enc).flatten).length ≤ fuel := by
      rw [hjoin] at hf
      simpa using hf
    cases fuel with
    | zero => omega
    | succ f =>
      rw [hjoin, hx, List.cons_append]
      have hd : dec (x :: (xs ++ ((ts.map enc).flatten))) =
          .ok (t, (ts.map enc).flatten) := by
        rw [← List.cons_append, ← hx]
        exact hdec t _
      show BytesOr.validateSeq dec (f + 1) (x :: (xs ++ ((ts.map enc).flatten))) =
        .ok ()
      rw [BytesOr.validateSeq, hd]
      exact ih f (by omega)

/-- Draining a bytes-backed sequence reflector over a concatenation of
valid encodings yields exactly the encoded values, in order, with no
panic, whenever the fuel covers the element count. -/
theorem collect_join {τ : Type} (dec : Decoder τ) (enc : τ → List Nat)
    (hdec : ∀ (t : τ) (rest : List Nat), dec (enc t ++ rest) = .ok (t, rest))
    (hne : ∀ t : τ, enc t ≠ []) :
    ∀ (ts : List τ) (fuel : Nat), ts.length ≤ fuel →
    IterBytesOr.collect dec fuel ⟨.bytes ((ts.map enc).flatten)⟩ = some ts := by
  intro ts
  induction ts with
  | nil =>
    intro fuel hf
    cases fuel <;> rfl
  | cons t ts ih =>
    intro fuel hf
    have hjoin : (((t :: ts).map enc).flatten) = enc t ++ ((ts.map enc).flatten) := by
      simp
    obtain ⟨x, xs, hx⟩ := List.exists_cons_of_ne_nil (hne t)
    have hnext : IterBytesOr.next dec ⟨.bytes (((t :: ts).map enc).flatten)⟩ =
        some (some (t, ⟨.bytes ((ts.map enc).flatten)⟩)) := by
      simp [IterBytesOr.next, hne t, hdec]
    cases fuel with
    | zero => simp at hf
    | succ f =>
      rw [IterBytesOr.collect, hnext]
      show (IterBytesOr.collect dec f ⟨.bytes ((ts.map enc).flatten)⟩).map
        (t :: ·) = some (t :: ts)
      rw [ih f (by simpa using hf)]
      rfl

/-- Draining a reference-backed sequence reflector yields exactly the
referenced elements, in order, whenever the fuel covers the element
count. -/
theorem collect_or {τ : Type} (dec : Decoder τ) :
    ∀ (l : List τ) (fuel : Nat), l.length ≤ fuel →
    IterBytesOr.collect dec fuel ⟨.or l⟩ = some l := by
  intro l
  induction l with
  | nil =>
    intro fuel hf
    cases fuel <;> rfl
  | cons x rest ih =>
    intro fuel hf
    cases fuel with
    | zero => simp at hf
    | succ f =>
      rw [IterBytesOr.collect]
      show (IterBytesOr.collect dec f ⟨.or rest⟩).map (x :: ·) =
        some (x :: rest)
      rw [ih f (by simpa using hf)]
      rfl

/-- C6: given a decoder and encoder that agree, with nonempty encodings,
constructing a sequence `BytesOr<[T]>` from the empty span succeeds and
its iterator yields zero elements; constructing it from the concatenation
of the encodings of `ts` succeeds, stores that span, and its iterator
yields exactly the elements of `ts` in encoding order — and since `iter()`
copies the unmodified reflector (`IterBytesOr { inner: *self }`), this
holds for every call to `iter()` (every sufficient fuel), not just the
first. -/
theorem bytesOr_seq_zero_or_more {τ : Type} (dec : Decoder τ)
    (enc : τ → List Nat)
    (hdec : ∀ (t : τ) (rest : List Nat), dec (enc t ++ rest) = .ok (t, rest))
    (hne : ∀ t : τ, enc t ≠ []) :
    (BytesOr.from_bytes_seq dec [] = .ok (.bytes [], []) ∧
      IterBytesOr.collect dec 0 (BytesOr.iter (.bytes [])) = some []) ∧
    ∀ ts : List τ,
      BytesOr.from_bytes_seq dec ((ts.map enc).flatten) =
        .ok (.bytes ((ts.map enc).flatten), (ts.map enc).flatten) ∧
      ∀ fuel : Nat, ts.length ≤ fuel →
        IterBytesOr.collect dec fuel
          (BytesOr.iter (.bytes ((ts.map enc).flatten))) = some ts := by
  refine ⟨⟨rfl, rfl⟩, ?_⟩
  intro ts
  constructor
  · unfold BytesOr.from_bytes_seq
    rw [validateSeq_join dec enc hdec hne ts (((ts.map enc).flatten).length + 1)
      (by omega)]
  · intro fuel hf
    exact collect_join dec enc hdec hne ts fuel hf

/-- Witness for C6 with the `u8` decoder and its one-byte encoding: the
empty span iterates zero elements, and the span `[1, 2, 3]` (three
concatenated encodings) is accepted and iterates `1, 2, 3` in order. -/
theorem bytesOr_seq_zero_or_more_witness :
    BytesOr.from_bytes_seq u8_from_bytes [] = .ok (.bytes [], []) ∧
    BytesOr.from_bytes_seq u8_from_bytes [1, 2, 3] =
      .ok (.bytes [1, 2, 3], [1, 2, 3]) ∧
    IterBytesOr.collect u8_from_bytes 3
      (BytesOr.iter (.bytes [1, 2, 3])) = some [1, 2, 3] := by
  have h := bytesOr_seq_zero_or_more u8_from_bytes (fun t => [t])
    (fun t rest => u8_from_bytes_cons t rest) (fun t => List.cons_ne_nil t [])
  exact ⟨h.1.1, (h.2 [1, 2, 3]).1, (h.2 [1, 2, 3]).2 3 (by decide)⟩

/-- C7: for logically equal content — a bytes-backed sequence reflector
over the concatenated encodings of `ts`, and a reference-backed one built
by `from_ref` over `ts` — iteration through `iter()` is observably
equivalent: both yield exactly the elements of `ts` in order. `iter()` is
a function of the reflector alone and copies it into the iterator
(`IterBytesOr { inner: *self }`), so the reflector is never consumed and
every repeated call (any fuel at least the element count) restarts from
the first element with the same result, in both representations. -/
theorem bytesOr_iter_representation_equiv {τ : Type} (dec : Decoder τ)
    (enc : τ → List Nat)
    (hdec : ∀ (t : τ) (rest : List Nat), dec (enc t ++ rest) = .ok (t, rest))
    (hne : ∀ t : τ, enc t ≠ []) (ts : List τ) (fuel : Nat)
    (hf : ts.length ≤ fuel) :
    IterBytesOr.collect dec fuel (BytesOr.iter (.bytes ((ts.map enc).flatten)))
      = some ts ∧
    IterBytesOr.collect dec fuel (BytesOr.iter (BytesOr.from_ref ts))
      = some ts := by
  exact ⟨collect_join dec enc hdec hne ts fuel hf, collect_or dec ts fuel hf⟩

/-- Witness for C7: a 3-element reference-backed reflector and the
bytes-backed reflector with the same content both iterate `4, 5, 6`. -/
theorem bytesOr_iter_representation_equiv_witness :
    IterBytesOr.collect u8_from_bytes 3 (BytesOr.iter (.bytes [4, 5, 6]))
      = some [4, 5, 6] ∧
    IterBytesOr.collect u8_from_bytes 3
      (BytesOr.iter (BytesOr.from_ref [4, 5, 6])) = some [4, 5, 6] := by
  exact bytesOr_iter_representation_equiv u8_from_bytes (fun t => [t])
    (fun t rest => u8_from_bytes_cons t rest) (fun t => List.cons_ne_nil t [])
    [4, 5, 6] 3 (by decide)

end Rubble
